import Mathlib

/-!
Verification of the Documentation-Crawler repository against its specification.

The Python source is shallowly embedded: each relevant function is translated
into an executable Lean definition over explicit state.  External effects
(HTTP fetches, hashing, HTML conversion, file-path construction) are passed in
as function parameters, so that every theorem quantifies over their behaviour.
Strings from the source are modelled as Lean `String`s or `List Char` where
character-level reasoning is required.
-/

/-! ## Embedding of `utils/config.py` (`CrawlerConfig.__post_init__`) -/

/-- The fields of the `CrawlerConfig` dataclass (`utils/config.py`). -/
structure CrawlerConfig where
  base_url : String
  language : String
  max_workers : Int
  debug : Bool
  timeout : Int
  max_retries : Int
  retry_delay : Rat
  chunk_size : Int
  user_agent : String
deriving Repr, DecidableEq

/-- Constructing a `CrawlerConfig` runs `__post_init__`; a `ValueError` raised by a
validation check is modelled as `Except.error` carrying the message, in the order
the checks appear in `utils/config.py`. -/
def mkCrawlerConfig (base_url language : String) (max_workers : Int) (debug : Bool)
    (timeout max_retries : Int) (retry_delay : Rat) (chunk_size : Int)
    (user_agent : String) : Except String CrawlerConfig :=
  if max_workers < 1 then .error "max_workers must be at least 1."
  else if timeout < 1 then .error "timeout must be at least 1."
  else if max_retries < 0 then .error "max_retries cannot be negative."
  else if retry_delay < 0 then .error "retry_delay cannot be negative."
  else if chunk_size < 1 then .error "chunk_size must be at least 1."
  else if user_agent = "" then .error "user_agent cannot be empty."
  else .ok ⟨base_url, language, max_workers, debug, timeout, max_retries,
    retry_delay, chunk_size, user_agent⟩

/-- `true` on `Except.ok`, mirroring "construction succeeded". -/
def exceptOk {ε α : Type} : Except ε α → Bool
  | .ok _ => true
  | .error _ => false

/-! ## Embedding of `DocCrawler.make_request` (`crawler/new_crawler.py` 74-92)

The outcome of the HTTP GET of attempt `i` is given by `oracle i`
(`none` models a raised `requests.RequestException`, including the one produced by
`raise_for_status`).  The returned pair carries the control-flow outcome and the
list of `time.sleep` durations, in order. -/

/-- Result of `make_request`: a returned response, a re-raised exception after the
final failed attempt, or Python's implicit `None` return when the loop body never
runs (`max_retries = 0`). -/
inductive ReqResult (α : Type) where
  | ok (r : α)
  | raised
  | noneReturn
deriving Repr, DecidableEq

/-- The retry loop of `make_request`, started at attempt number `attempt` with
`remaining` loop iterations left.  A failed attempt that is not the last one sleeps
`retry_delay * (attempt + 1)` seconds before the next attempt. -/
def make_request_from {α : Type} (oracle : Nat → Option α) (retry_delay : Rat) :
    Nat → Nat → ReqResult α × List Rat
  | _, 0 => (.noneReturn, [])
  | attempt, remaining + 1 =>
    match oracle attempt with
    | some r => (.ok r, [])
    | none =>
      if remaining = 0 then (.raised, [])
      else
        let rest := make_request_from oracle retry_delay (attempt + 1) remaining
        (rest.1, retry_delay * ((attempt + 1 : Nat) : Rat) :: rest.2)

/-- `DocCrawler.make_request`: `for attempt in range(max_retries)` with linear
backoff between consecutive attempts. -/
def make_request {α : Type} (oracle : Nat → Option α) (retry_delay : Rat)
    (max_retries : Nat) : ReqResult α × List Rat :=
  make_request_from oracle retry_delay 0 max_retries

/-! ## Embedding of `DocCrawler.process_page` (`crawler/new_crawler.py` 292-330)

State touched by `process_page`: the persisted `page_states` hash map, the files
written to `downloaded_docs`, and the `processed`/`errors` display counters.
External collaborators are parameters: `hash` models `calculate_hash` (SHA-256
hex digest), `fetch` models `make_request` followed by `.text` (`none` = any
exception escaping the fetch), `convert` models `HTMLToMarkdownConverter.convert`
and `mkpath` models `_create_filepath` applied to the stripped URL path. -/

/-- The crawler state visible to `process_page`. -/
structure CrawlState where
  pageStates : List (String × String)
  files : List (String × String)
  processed : Nat
  errors : Nat
deriving Repr, DecidableEq

/-- Association-list lookup, modelling `page_states[url]` / `url in page_states`. -/
def lookupA (l : List (String × String)) (k : String) : Option String :=
  (l.find? (fun p => p.1 == k)).map Prod.snd

/-- Association-list store, modelling `page_states[url] = h`. -/
def insertA (l : List (String × String)) (k v : String) : List (String × String) :=
  if (l.find? (fun p => p.1 == k)).isSome then
    l.map (fun p => if p.1 == k then (k, v) else p)
  else l ++ [(k, v)]

/-- `DocCrawler.process_page`: fetch, hash, skip when the stored digest matches,
otherwise write the requested output files and record the new digest.  The
enclosing `try/except` makes the function total: a failing fetch only increments
the error counter. -/
def process_page (hash : String → String) (fetch : String → Option String)
    (convert : String → String) (mkpath : String → Bool → String → String)
    (url : String) (store_raw_html store_markdown store_text store_flatten : Bool)
    (st : CrawlState) : CrawlState :=
  match fetch url with
  | none => { st with errors := st.errors + 1 }
  | some content =>
    let current_hash := hash content
    if lookupA st.pageStates url = some current_hash then
      { st with processed := st.processed + 1 }
    else
      let st1 := if store_markdown then
        { st with files := st.files ++ [(mkpath url store_flatten ".md", convert content)] }
        else st
      let st2 := if store_raw_html then
        { st1 with files := st1.files ++ [(mkpath url store_flatten ".html", content)] }
        else st1
      let st3 := if store_text then
        { st2 with files := st2.files ++ [(mkpath url store_flatten ".txt", content)] }
        else st2
      { st3 with pageStates := insertA st3.pageStates url current_hash,
                 processed := st3.processed + 1 }

/-- Sequential composition of `process_page` over the selected URLs, the per-page
effect of `process_selected_pages` (`crawler/new_crawler.py` 332-349). -/
def process_selected_pages (hash : String → String) (fetch : String → Option String)
    (convert : String → String) (mkpath : String → Bool → String → String)
    (store_raw_html store_markdown store_text store_flatten : Bool)
    (urls : List String) (st : CrawlState) : CrawlState :=
  urls.foldl (fun s u =>
    process_page hash fetch convert mkpath u store_raw_html store_markdown
      store_text store_flatten s) st

/-! ## Embedding of `DocCrawler.process_sitemap_chunk` (`crawler/new_crawler.py` 168-178)

`f url` is the body `process_sitemap_url(url)`: `.ok` with its returned
`(url, title)` pairs, `.error` when it raises.  The chunk loop catches the
exception, bumps the error counter and continues with the next URL. -/

/-- `DocCrawler.process_sitemap_chunk`: per-URL try/except accumulation. -/
def process_sitemap_chunk (f : String → Except Unit (List (String × String)))
    (errors0 : Nat) (urls : List String) : List (String × String) × Nat :=
  urls.foldl (fun acc url =>
    match f url with
    | .ok rs => (acc.1 ++ rs, acc.2)
    | .error _ => (acc.1, acc.2 + 1)) ([], errors0)

/-- The pairs contributed by one sitemap URL once exceptions are accounted for. -/
def resultsOf (f : String → Except Unit (List (String × String))) (u : String) :
    List (String × String) :=
  match f u with
  | .ok rs => rs
  | .error _ => []

/-! ## Embedding of `URLProcessor.is_relevant_url` (`utils/url_processor.py` 19-74)

`urlparse` of the candidate URL string is Python-standard-library code; the
embedding therefore takes the parsed components as input: the network location,
the path, and the first value of the `hl` query parameter
(`parse_qs(query).get('hl', [None])[0]`). -/

/-- The components of `urlparse(url)` used by `is_relevant_url`. -/
structure ParsedURL where
  netloc : String
  path : String
  hl : Option String
deriving Repr, DecidableEq

/-- Contiguous-sublist test on character lists. -/
def listInfix (pat : List Char) : List Char → Bool
  | [] => pat.isEmpty
  | c :: cs => pat.isPrefixOf (c :: cs) || listInfix pat cs

/-- Python `pat in s` (substring containment). -/
def substrOf (pat s : String) : Bool := listInfix pat.toList s.toList

/-- Python `s.startswith(pre)`. -/
def strStarts (s pre : String) : Bool := pre.toList.isPrefixOf s.toList

/-- The hard-coded non-English path markers checked in the English branch. -/
def nonEnglishMarkers : List String :=
  ["/fr/", "/de/", "/es/", "/pt/", "/ja/", "/ko/", "/zh/"]

/-- `URLProcessor.is_relevant_url`: domain check, base-path prefix check, then the
language convention (query parameter `hl`, or path-based routing). -/
def is_relevant_url (domain : String) (base_paths : List String) (u : ParsedURL)
    (language : String) : Bool :=
  if u.netloc ≠ domain then false
  else if ¬ (base_paths.any (fun bp => strStarts u.path bp) = true) then false
  else
    if language = "en" then
      match u.hl with
      | none =>
        if substrOf "/en/" u.path || strStarts u.path "/en" then true
        else if nonEnglishMarkers.any (fun lg => substrOf lg u.path) then false
        else true
      | some ul => ul = "en"
    else
      if u.hl = some language then true
      else if substrOf ("/" ++ language ++ "/") u.path
          || strStarts u.path ("/" ++ language) then true
      else false

/-- Path segments: the path split on `'/'` (used to state the claim's notion of
"contains the language as a segment"). -/
def splitSeg : List Char → List (List Char)
  | [] => [[]]
  | c :: cs =>
    if c = '/' then [] :: splitSeg cs
    else
      match splitSeg cs with
      | s :: ss => (c :: s) :: ss
      | [] => [[c]]

/-- Language codes recognisable as path indicators (the codes appearing in the
source plus `en`), used to state "absence of any language indicator". -/
def langCodes : List String := ["en", "fr", "de", "es", "pt", "ja", "ko", "zh"]

/-- "Absence of any language indicator": no `hl` parameter and no known language
code occurring as a path segment. -/
def noLangIndicator (u : ParsedURL) : Bool :=
  u.hl = none
    && (splitSeg u.path.toList).all (fun s => ¬ langCodes.any (fun c => c.toList = s))

/-- The language convention exactly as the claim words it: the `hl` query
parameter equals the language, or the path contains the language as a segment;
for `en`, the absence of any language indicator also counts. -/
def claim_language_match (language : String) (u : ParsedURL) : Bool :=
  u.hl = some language
    || (splitSeg u.path.toList).contains language.toList
    || (language = "en" && noLangIndicator u)

/-- The language convention the code actually implements: `hl` equals the
language, or the path contains `/language/`, or the path merely starts with
`/language` (a prefix test, not a segment test); for `en` with no `hl`
parameter, the absence of every known non-English marker also counts. -/
def code_language_match (language : String) (u : ParsedURL) : Bool :=
  if language = "en" then
    match u.hl with
    | none =>
      substrOf "/en/" u.path || strStarts u.path "/en"
        || !(nonEnglishMarkers.any (fun lg => substrOf lg u.path))
    | some ul => ul == "en"
  else
    (u.hl == some language) || substrOf ("/" ++ language ++ "/") u.path
      || strStarts u.path ("/" ++ language)

/-! ## Embedding of `DocCrawler.get_scraped_content` (`crawler/new_crawler.py` 365-390)

Each submitted future scrapes one URL; `fetch u` is the deterministic result of
`_scrape_single_page(u)` (`none` models an exception or a falsy empty result,
which the merge loop skips).  The `content` dict is a map from URL to content;
futures complete in an arbitrary order, so the merge is folded over an arbitrary
`completion` order, a permutation of the submitted URLs. -/

/-- The `content` mapping built by `get_scraped_content`, merging per-URL results
in completion order. -/
def get_scraped_content {α : Type} (fetch : String → Option α)
    (completion : List String) : String → Option α :=
  completion.foldl (fun m u =>
    match fetch u with
    | some c => fun x => if x = u then some c else m x
    | none => m) (fun _ => none)

/-! ## Embedding of `DocCrawler.parallel_sitemap_processing` (`crawler/new_crawler.py` 180-204) -/

/-- The chunking `[sitemap_urls[i:i + chunk_size] for i in range(0, len, chunk_size)]`,
with the list length as recursion fuel (`chunk_size ≥ 1` guarantees progress). -/
def chunkListAux {α : Type} (k : Nat) : Nat → List α → List (List α)
  | 0, _ => []
  | _, [] => []
  | fuel + 1, x :: xs => (x :: xs).take k :: chunkListAux k fuel ((x :: xs).drop k)

/-- Split a list into consecutive chunks of size `k` (last possibly shorter). -/
def chunkList {α : Type} (l : List α) (k : Nat) : List (List α) :=
  chunkListAux k l.length l

/-- The shared `self.sitemap` dict, as a map from URL to title. -/
def SMap : Type := String → Option String

/-- `self.sitemap[url] = title`. -/
def updateMap (m : SMap) (k v : String) : SMap :=
  fun x => if x = k then some v else m x

/-- Merge one future's result list into the sitemap, in order (the loop body that
runs under `self.sitemap_lock`). -/
def mergePairs (m : SMap) (rs : List (String × String)) : SMap :=
  rs.foldl (fun acc p => updateMap acc p.1 p.2) m

/-- The `(url, title)` pairs returned by `process_sitemap_chunk` for one chunk. -/
def chunkResults (f : String → Except Unit (List (String × String)))
    (c : List String) : List (String × String) :=
  (process_sitemap_chunk f 0 c).1

/-- `DocCrawler.parallel_sitemap_processing`: each chunk future's results are
merged into the shared sitemap under the lock; merges happen atomically in the
completion order `order` of the futures. -/
def parallel_sitemap_processing (f : String → Except Unit (List (String × String)))
    (order : List (List String)) : SMap :=
  order.foldl (fun m c => mergePairs m (chunkResults f c)) (fun _ => none)

/-! ## Embedding of `URLProcessor._parse_xml_sitemap` (`utils/url_processor.py` 130-167)

The already-parsed XML document is a tree of elements; `findall('.//ns:loc')`
walks all strict descendants of the root in document order and keeps elements
whose qualified tag is `{sitemap-namespace}loc`.  `ElementTree` element text is
`Option String` (`None` when the element has no text node). -/

mutual
/-- A parsed XML element: qualified tag, text, children in document order. -/
inductive XMLTree where
  | elem (tag : String) (text : Option String) (children : XMLForest)
/-- A list of sibling XML elements. -/
inductive XMLForest where
  | nil
  | cons (t : XMLTree) (ts : XMLForest)
end

/-- The qualified tag of an element. -/
def XMLTree.tag : XMLTree → String
  | .elem t _ _ => t

/-- The text of an element. -/
def XMLTree.text : XMLTree → Option String
  | .elem _ tx _ => tx

mutual
/-- All strict descendants of an element, in document order (`.//` of `findall`). -/
def descendants : XMLTree → List XMLTree
  | .elem _ _ cs => forestElems cs
/-- All elements of a forest and their descendants, in document order. -/
def forestElems : XMLForest → List XMLTree
  | .nil => []
  | .cons t ts => (t :: descendants t) ++ forestElems ts
end

/-- The qualified tag `findall('.//ns:loc', namespaces)` searches for. -/
def nsLoc : String := "\x7bhttp://www.sitemaps.org/schemas/sitemap/0.9\x7dloc"

/-- `root.findall('.//ns:loc', namespaces)`. -/
def findall_loc (doc : XMLTree) : List XMLTree :=
  (descendants doc).filter (fun e => e.tag == nsLoc)

/-- `URLProcessor._parse_xml_sitemap` applied to an already-fetched,
well-formed document: `[loc.text for loc in loc_elements if loc.text]`
(Python truthiness drops both `None` and the empty string). -/
def parse_xml_sitemap (doc : XMLTree) : List String :=
  (findall_loc doc).filterMap (fun e =>
    match e.text with
    | some s => if s ≠ "" then some s else none
    | none => none)

/-- The spec's reading: the text values of the document's `<loc>` elements
(root included), in document order. -/
def locTextValues (doc : XMLTree) : List String :=
  ((doc :: descendants doc).filter (fun e => e.tag == nsLoc)).filterMap XMLTree.text

/-! ## Embedding of `chunk_text` (`src/utils.py` 91-122) -/

/-- Does `sub` occur in `text` starting at index `i`? -/
def matchesAt (text sub : List Char) (i : Nat) : Bool :=
  (text.drop i).take sub.length == sub

/-- Python `text.rfind(sub, s, e)`: the greatest index `i ≥ s` with the match
lying entirely inside `[s, e)`; `none` models the `-1` result. -/
def rfindSub (text sub : List Char) (s e : Nat) : Option Nat :=
  ((List.range' s (e - s)).filter
    (fun i => decide (i + sub.length ≤ e) && matchesAt text sub i)).getLast?

/-- An `rfind` result accepted by the `!= -1 and > start` guard of `chunk_text`. -/
def rfindGt (text sub : List Char) (s e : Nat) : Option Nat :=
  match rfindSub text sub s e with
  | some i => if s < i then some i else none
  | none => none

/-- The break-point adjustment of `chunk_text`: prefer a paragraph break, then a
sentence end, then a word boundary, each only when strictly after `start`. -/
def adjustEnd (text : List Char) (s e : Nat) : Nat :=
  match rfindGt text ('\n' :: '\n' :: []) s e with
  | some pb => pb + 2
  | none =>
    match rfindGt text ('.' :: ' ' :: []) s e with
    | some se2 => se2 + 2
    | none =>
      match rfindGt text (' ' :: []) s e with
      | some wb => wb + 1
      | none => e

/-- The `while start < len(text)` loop of `chunk_text`, with fuel; each chunk is
`text[start:end]` and the next iteration resumes at `end`. -/
def chunk_loop (text : List Char) (maxLen : Nat) : Nat → Nat → List (List Char)
  | _, 0 => []
  | start, fuel + 1 =>
    if start < text.length then
      let e0 := start + maxLen
      let e := if e0 < text.length then adjustEnd text start e0 else e0
      ((text.drop start).take (e - start)) :: chunk_loop text maxLen e fuel
    else []

/-- `chunk_text`: short texts are returned whole, otherwise the loop splits at
break points.  `text.length + 1` fuel suffices because every iteration advances
`start` when `max_length ≥ 1`. -/
def chunk_text (text : List Char) (maxLen : Nat) : List (List Char) :=
  if text.length ≤ maxLen then [text]
  else chunk_loop text maxLen 0 (text.length + 1)

/-! ## Embedding of `normalize_url` (`src/utils.py` 29-33)

`normalize_url` formats `f"{scheme}://{netloc}{path}"` from `urlparse(url)` and
strips trailing slashes.  `urlparse` is CPython's `urllib.parse.urlparse`:
`urlsplit` (scheme / netloc / fragment / query splitting) followed by parameter
splitting on the path (`_splitparams`).  URLs are modelled as `List Char` and
the splitting algorithm is transcribed from CPython. -/

/-- CPython `scheme_chars`: ASCII letters, digits and `+`, `-`, `.`
(character codes written out). -/
def isSchemeChar (c : Char) : Bool :=
  (65 ≤ c.toNat && c.toNat ≤ 90) || (97 ≤ c.toNat && c.toNat ≤ 122)
    || (48 ≤ c.toNat && c.toNat ≤ 57) || c.toNat == 43 || c.toNat == 45
    || c.toNat == 46

/-- Python `ch.isascii() and ch.isalpha()`: an ASCII letter. -/
def isAsciiAlpha (c : Char) : Bool :=
  (65 ≤ c.toNat && c.toNat ≤ 90) || (97 ≤ c.toNat && c.toNat ≤ 122)

/-- Python `str.lower()` on the ASCII range, the only range a valid scheme can
contain. -/
def pyLower (c : Char) : Char :=
  if 65 ≤ c.toNat ∧ c.toNat ≤ 90 then Char.ofNat (c.toNat + 32) else c

/-- The result of `urlsplit`. -/
structure URLSplitRes where
  scheme : List Char
  netloc : List Char
  path : List Char
  query : List Char
  fragment : List Char
deriving Repr, DecidableEq

/-- The scheme-recognition step of `urlsplit`: split at the first `':'` when the
part before it is a nonempty run of scheme characters starting with an ASCII
letter; the scheme is lower-cased. -/
def schemeSplit (u : List Char) : List Char × List Char :=
  let before := u.takeWhile (fun c => c ≠ ':')
  if (':' ∈ u) ∧ before ≠ [] ∧ isAsciiAlpha (before.headD ' ') = true
      ∧ before.all isSchemeChar = true then
    (before.map pyLower, (u.dropWhile (fun c => c ≠ ':')).drop 1)
  else ([], u)

/-- A character ending the netloc in `_splitnetloc`. -/
def isNetlocEnd (c : Char) : Bool := c = '/' || c = '?' || c = '#'

/-- The netloc step of `urlsplit`: when the rest starts with `//`, the netloc
runs to the first of `/?#`. -/
def netlocSplit (l : List Char) : List Char × List Char :=
  if l.take 2 = ('/' :: '/' :: []) then
    ((l.drop 2).takeWhile (fun c => !isNetlocEnd c),
      (l.drop 2).dropWhile (fun c => !isNetlocEnd c))
  else ([], l)

/-- CPython `urlsplit`: scheme, then netloc, then the fragment is split off at
the first `'#'`, then the query at the first `'?'`. -/
def urlsplitM (u : List Char) : URLSplitRes :=
  let s1 := schemeSplit u
  let s2 := netlocSplit s1.2
  let afterFrag := s2.2.takeWhile (fun c => c ≠ '#')
  ⟨s1.1, s2.1,
    afterFrag.takeWhile (fun c => c ≠ '?'),
    (afterFrag.dropWhile (fun c => c ≠ '?')).drop 1,
    (s2.2.dropWhile (fun c => c ≠ '#')).drop 1⟩

/-- CPython `_splitparams`, returning the path part only: when the path contains
a `'/'`, parameters start at the first `';'` at or after the last `'/'`;
otherwise at the first `';'`. -/
def splitparams (p : List Char) : List Char :=
  if '/' ∈ p then
    let b := (p.reverse.takeWhile (fun c => c ≠ '/')).reverse
    let a := (p.reverse.dropWhile (fun c => c ≠ '/')).reverse
    if ';' ∈ b then a ++ b.takeWhile (fun c => c ≠ ';') else p
  else p.takeWhile (fun c => c ≠ ';')

/-- The `.path` attribute of `urlparse(url)`: `urlsplit`'s path with parameters
split off when it contains a `';'`. -/
def urlparse_path (u : List Char) : List Char :=
  if ';' ∈ (urlsplitM u).path then splitparams (urlsplitM u).path
  else (urlsplitM u).path

/-- Python `s.rstrip('/')`. -/
def rstripSlash (l : List Char) : List Char :=
  (l.reverse.dropWhile (fun c => c = '/')).reverse

/-- `normalize_url`: `f"{parsed.scheme}://{parsed.netloc}{parsed.path}".rstrip('/')`. -/
def normalize_url (u : List Char) : List Char :=
  rstripSlash ((urlsplitM u).scheme ++ ':' :: '/' :: '/' ::
    ((urlsplitM u).netloc ++ urlparse_path u))

/-! ## Theorems -/

/-- Claim C10: constructing a `CrawlerConfig` raises `ValueError` exactly when
`max_workers < 1`, `timeout < 1`, `max_retries < 0`, `retry_delay < 0`,
`chunk_size < 1` or `user_agent` is empty; otherwise construction succeeds and the
object holds exactly the given field values. -/
theorem crawler_config_validation (bu lang : String) (mw : Int) (dbg : Bool)
    (tm mr : Int) (rd : Rat) (cs : Int) (ua : String) :
    (exceptOk (mkCrawlerConfig bu lang mw dbg tm mr rd cs ua) = false ↔
      (mw < 1 ∨ tm < 1 ∨ mr < 0 ∨ rd < 0 ∨ cs < 1 ∨ ua = ""))
    ∧ (¬(mw < 1 ∨ tm < 1 ∨ mr < 0 ∨ rd < 0 ∨ cs < 1 ∨ ua = "") →
      mkCrawlerConfig bu lang mw dbg tm mr rd cs ua =
        .ok ⟨bu, lang, mw, dbg, tm, mr, rd, cs, ua⟩) := by
  unfold mkCrawlerConfig
  constructor
  · split_ifs with h1 h2 h3 h4 h5 h6 <;> simp [exceptOk] <;>
      first
        | tauto
        | exact ⟨le_of_not_lt h1, le_of_not_lt h2, le_of_not_lt h3,
            le_of_not_lt h4, le_of_not_lt h5, h6⟩
  · intro h
    push_neg at h
    obtain ⟨h1, h2, h3, h4, h5, h6⟩ := h
    split_ifs <;> first | rfl | omega | linarith

/-- Witness for C10 at concrete inputs: valid fields give exactly the stored
object; an invalid `max_workers` is rejected. -/
theorem crawler_config_validation_witness :
    mkCrawlerConfig "https://d.com" "en" 10 false 10 3 1 10 "UA" =
      .ok ⟨"https://d.com", "en", 10, false, 10, 3, 1, 10, "UA"⟩
    ∧ exceptOk (mkCrawlerConfig "https://d.com" "en" 0 false 10 3 1 10 "UA") = false := by
  constructor
  · exact (crawler_config_validation "https://d.com" "en" 10 false 10 3 1 10 "UA").2
      (by decide)
  · exact (crawler_config_validation "https://d.com" "en" 0 false 10 3 1 10 "UA").1.mpr
      (by decide)

/-- All-failure behaviour of the retry loop from an arbitrary starting attempt. -/
theorem make_request_from_all_fail {α : Type} (oracle : Nat → Option α) (d : Rat) :
    ∀ m a, 1 ≤ m → (∀ i, a ≤ i → i < a + m → oracle i = none) →
    make_request_from oracle d a m =
      (.raised, (List.range' (a + 1) (m - 1)).map (fun j : Nat => d * (j : Rat))) := by
  intro m
  induction m with
  | zero => omega
  | succ m ih =>
    intro a _ hfail
    have ha : oracle a = none := hfail a (Nat.le_refl a) (by omega)
    by_cases hm : m = 0
    · subst hm
      simp [make_request_from, ha]
    · have hrec := ih (a + 1) (by omega) (fun i h1 h2 => hfail i (by omega) (by omega))
      have hm1 : (m + 1) - 1 = (m - 1) + 1 := by omega
      simp only [make_request_from, ha, if_neg hm, hrec, hm1, List.range'_succ]
      simp

/-- Behaviour of the retry loop when attempt `k` is the first success. -/
theorem make_request_from_success {α : Type} (oracle : Nat → Option α) (d : Rat) :
    ∀ m a k r, a ≤ k → k < a + m → oracle k = some r →
    (∀ i, a ≤ i → i < k → oracle i = none) →
    make_request_from oracle d a m =
      (.ok r, (List.range' (a + 1) (k - a)).map (fun j : Nat => d * (j : Rat))) := by
  intro m
  induction m with
  | zero => omega
  | succ m ih =>
    intro a k r hak hkm hk hfail
    by_cases hae : a = k
    · subst hae
      simp [make_request_from, hk]
    · have ha : oracle a = none := hfail a (Nat.le_refl a) (by omega)
      have hm : m ≠ 0 := by omega
      have hrec := ih (a + 1) k r (by omega) (by omega) hk
        (fun i h1 h2 => hfail i (by omega) h2)
      simp only [make_request_from, ha, if_neg hm, hrec]
      have hka : k - a = (k - (a + 1)) + 1 := by omega
      rw [hka, List.range'_succ]
      simp

/-- Claim C4: `make_request` makes up to `max_retries` attempts, sleeping
`retry_delay * (attempt + 1)` between consecutive attempts; if every attempt
fails the exception of the last attempt is re-raised, and a successful attempt
returns its response at once. -/
theorem make_request_retry_behavior {α : Type} (oracle : Nat → Option α) (d : Rat)
    (n : Nat) (hn : 1 ≤ n) :
    ((∀ i, i < n → oracle i = none) →
      make_request oracle d n =
        (.raised, (List.range (n - 1)).map (fun i : Nat => d * ((i + 1 : Nat) : Rat))))
    ∧ (∀ k r, k < n → oracle k = some r → (∀ i, i < k → oracle i = none) →
      make_request oracle d n =
        (.ok r, (List.range k).map (fun i : Nat => d * ((i + 1 : Nat) : Rat)))) := by
  constructor
  · intro hfail
    rw [make_request, make_request_from_all_fail oracle d n 0 hn
      (fun i _ h2 => hfail i (by omega))]
    rw [List.range'_eq_map_range, List.map_map]
    congr 1
    apply List.map_congr_left
    intro i _
    simp [Nat.add_comm]
  · intro k r hk hkr hfail
    rw [make_request, make_request_from_success oracle d n 0 k r (Nat.zero_le k)
      (by omega) hkr (fun i _ h2 => hfail i h2)]
    rw [List.range'_eq_map_range, List.map_map]
    simp only [Nat.sub_zero]
    congr 1
    apply List.map_congr_left
    intro i _
    simp [Nat.add_comm]

/-- Witness for C4: three attempts, failure then success on attempt index 1 —
one sleep of `d * 1`, response returned. -/
theorem make_request_retry_behavior_witness :
    make_request (fun i => if i = 1 then some 7 else none) (2 : Rat) 3 =
      (.ok 7, [2]) := by
  have h := (make_request_retry_behavior (fun i => if i = 1 then some 7 else none)
    (2 : Rat) 3 (by norm_num)).2 1 7 (by norm_num) (by simp)
    (by intro i hi; interval_cases i; simp)
  rw [h]
  norm_num [List.range_succ]

/-- Claim C2: when the fetched content hashes to the digest already stored for the
URL in `page_states`, `process_page` skips the page — no output file is written and
`page_states` is left unchanged. -/
theorem process_page_skips_unchanged (hash : String → String)
    (fetch : String → Option String) (convert : String → String)
    (mkpath : String → Bool → String → String) (url content : String)
    (b1 b2 b3 b4 : Bool) (st : CrawlState)
    (hfetch : fetch url = some content)
    (hsame : lookupA st.pageStates url = some (hash content)) :
    (process_page hash fetch convert mkpath url b1 b2 b3 b4 st).files = st.files
    ∧ (process_page hash fetch convert mkpath url b1 b2 b3 b4 st).pageStates =
      st.pageStates := by
  unfold process_page
  rw [hfetch]
  simp [hsame]

/-- Witness for C2: a page whose stored digest matches is skipped. -/
theorem process_page_skips_unchanged_witness :
    (process_page (fun _ => "h0") (fun _ => some "body") id (fun _ _ s => s)
      "u" true true true false ⟨[("u", "h0")], [], 0, 0⟩).files = []
    ∧ (process_page (fun _ => "h0") (fun _ => some "body") id (fun _ _ s => s)
      "u" true true true false ⟨[("u", "h0")], [], 0, 0⟩).pageStates = [("u", "h0")] := by
  exact process_page_skips_unchanged (fun _ => "h0") (fun _ => some "body") id
    (fun _ _ s => s) "u" "body" true true true false ⟨[("u", "h0")], [], 0, 0⟩
    rfl (by decide)

/-- Closed form of `process_sitemap_chunk`: every URL of the chunk is processed,
failures only bump the error counter. -/
theorem process_sitemap_chunk_closed (f : String → Except Unit (List (String × String)))
    (e0 : Nat) (urls : List String) :
    process_sitemap_chunk f e0 urls =
      (urls.flatMap (resultsOf f), e0 + urls.countP (fun u => !(exceptOk (f u)))) := by
  suffices h : ∀ (acc : List (String × String) × Nat),
      urls.foldl (fun acc url =>
        match f url with
        | .ok rs => (acc.1 ++ rs, acc.2)
        | .error _ => (acc.1, acc.2 + 1)) acc =
      (acc.1 ++ urls.flatMap (resultsOf f),
        acc.2 + urls.countP (fun u => !(exceptOk (f u)))) by
    rw [process_sitemap_chunk, h ([], e0)]
    simp
  induction urls with
  | nil => intro acc; simp
  | cons u us ih =>
    intro acc
    simp only [List.foldl_cons, List.flatMap_cons, List.countP_cons]
    cases hu : f u with
    | ok rs =>
      rw [ih]
      simp [resultsOf, exceptOk, hu, List.append_assoc]
    | error e =>
      rw [ih, Prod.ext_iff]
      constructor
      · simp [resultsOf, hu]
      · simp only [resultsOf, exceptOk, hu]
        simp
        omega

/-- Error-count delta of a single `process_page` call: exactly the failing fetches
are counted, nothing else touches the error counter. -/
theorem process_page_errors (hash : String → String) (fetch : String → Option String)
    (convert : String → String) (mkpath : String → Bool → String → String)
    (url : String) (b1 b2 b3 b4 : Bool) (st : CrawlState) :
    (process_page hash fetch convert mkpath url b1 b2 b3 b4 st).errors =
      st.errors + (if (fetch url).isNone then 1 else 0) := by
  unfold process_page
  cases hf : fetch url with
  | none => simp
  | some content =>
    simp only [Option.isNone_some, Bool.false_eq_true, if_false, Nat.add_zero]
    split
    · rfl
    · split <;> split <;> split <;> rfl

/-- Claim C5: a raised exception is caught at the per-URL level inside
`process_sitemap_chunk` and at the per-page level inside `process_page`; the error
counter is incremented once per failure and every remaining item is still
processed, so the crawl never aborts.  The first equation exhibits the chunk
result as a total function of all chunk URLs; the second shows the page loop runs
to completion with exactly the failing fetches counted. -/
theorem per_item_errors_contained (f : String → Except Unit (List (String × String)))
    (e0 : Nat) (urls : List String) (hash : String → String)
    (fetch : String → Option String) (convert : String → String)
    (mkpath : String → Bool → String → String) (b1 b2 b3 b4 : Bool)
    (pages : List String) (st : CrawlState) :
    process_sitemap_chunk f e0 urls =
      (urls.flatMap (resultsOf f), e0 + urls.countP (fun u => !(exceptOk (f u))))
    ∧ (process_selected_pages hash fetch convert mkpath b1 b2 b3 b4 pages st).errors =
      st.errors + pages.countP (fun u => (fetch u).isNone) := by
  constructor
  · exact process_sitemap_chunk_closed f e0 urls
  · induction pages generalizing st with
    | nil => simp [process_selected_pages]
    | cons p ps ih =>
      simp only [process_selected_pages, List.foldl_cons, List.countP_cons]
      have h1 := ih (process_page hash fetch convert mkpath p b1 b2 b3 b4 st)
      simp only [process_selected_pages] at h1
      rw [h1, process_page_errors]
      cases hp : fetch p <;> simp [hp] <;> omega

/-- Claim C1 as stated is false on the code: `is_relevant_url` accepts a URL whose
path merely starts with `/<language>` without containing the language as a path
segment.  Concretely, with language `fr` the path `/freebie` is accepted. -/
theorem is_relevant_url_claim_counterexample :
    ¬ (∀ (domain : String) (bps : List String) (u : ParsedURL) (lang : String),
      is_relevant_url domain bps u lang = true →
        (u.netloc = domain ∧ (∃ bp ∈ bps, strStarts u.path bp = true)
          ∧ claim_language_match lang u = true)) := by
  intro h
  have h2 := h "docs.example.com" [""] ⟨"docs.example.com", "/freebie", none⟩ "fr"
    (by decide)
  exact absurd h2.2.2 (by decide)

/-- Claim C1 (amended): `is_relevant_url` returns `true` only if the URL's host
equals the configured domain, its path starts with one of the configured base
paths, and it matches the code's language convention: `hl` equals the language,
or the path contains `/<language>/`, or the path starts with `/<language>`; for
language `en` with no `hl` parameter, the absence of all known non-English path
markers also counts as a match. -/
theorem is_relevant_url_only_if (domain : String) (bps : List String) (u : ParsedURL)
    (lang : String) (h : is_relevant_url domain bps u lang = true) :
    u.netloc = domain ∧ bps.any (fun bp => strStarts u.path bp) = true
      ∧ code_language_match lang u = true := by
  obtain ⟨unl, upath, uhl⟩ := u
  simp only [is_relevant_url] at h
  by_cases h1 : unl ≠ domain
  · rw [if_pos h1] at h
    exact absurd h (by simp)
  · rw [if_neg h1] at h
    by_cases h2 : ¬ (bps.any (fun bp => strStarts upath bp) = true)
    · rw [if_pos h2] at h
      exact absurd h (by simp)
    · rw [if_neg h2] at h
      refine ⟨not_not.mp h1, not_not.mp h2, ?_⟩
      simp only [code_language_match]
      by_cases hen : lang = "en"
      · rw [if_pos hen] at h ⊢
        cases uhl with
        | none =>
          cases ha : (substrOf "/en/" upath || strStarts upath "/en") with
          | true => rfl
          | false =>
            rw [ha] at h
            cases hm : (nonEnglishMarkers.any fun lg => substrOf lg upath) with
            | true =>
              rw [hm] at h
              simp at h
            | false => rfl
        | some ul =>
          simpa using h
      · rw [if_neg hen] at h ⊢
        by_cases hq : uhl = some lang
        · subst hq
          simp
        · rw [if_neg hq] at h
          cases hp : (substrOf ("/" ++ lang ++ "/") upath
              || strStarts upath ("/" ++ lang)) with
          | true =>
            rcases Bool.or_eq_true_iff.mp hp with hp1 | hp1 <;> simp [hp1]
          | false =>
            rw [hp] at h
            simp at h

/-- Witness for C1: a relevant English documentation URL passes all three checks. -/
theorem is_relevant_url_only_if_witness :
    (⟨"docs.example.com", "/docs/en/start", none⟩ : ParsedURL).netloc = "docs.example.com"
    ∧ ["/docs"].any (fun bp => strStarts "/docs/en/start" bp) = true
    ∧ code_language_match "en" ⟨"docs.example.com", "/docs/en/start", none⟩ = true := by
  exact is_relevant_url_only_if "docs.example.com" ["/docs"]
    ⟨"docs.example.com", "/docs/en/start", none⟩ "en" (by decide)

/-- Lookup characterisation of the content merge, for an arbitrary initial map. -/
theorem get_scraped_content_foldl_lookup {α : Type} (fetch : String → Option α) :
    ∀ (l : List String) (m : String → Option α) (u : String),
      (l.foldl (fun m u =>
        match fetch u with
        | some c => fun x => if x = u then some c else m x
        | none => m) m) u =
      if u ∈ l ∧ (fetch u).isSome then fetch u else m u := by
  intro l
  induction l with
  | nil => intro m u; simp
  | cons v vs ih =>
    intro m u
    simp only [List.foldl_cons]
    rw [ih]
    split_ifs with hmem hcons hcons
    · rfl
    · exact absurd ⟨List.mem_cons_of_mem v hmem.1, hmem.2⟩ hcons
    · obtain ⟨hmem1, hsome⟩ := hcons
      have huv : u = v := by
        rcases List.mem_cons.mp hmem1 with hx | hx
        · exact hx
        · exact absurd ⟨hx, hsome⟩ hmem
      subst huv
      cases hfu : fetch u with
      | some c => simp
      | none =>
        rw [hfu] at hsome
        simp at hsome
    · cases hfv : fetch v with
      | some c =>
        by_cases huv : u = v
        · subst huv
          exact absurd ⟨List.mem_cons_self u vs, by simp [hfv]⟩ hcons
        · simp [huv]
      | none => rfl

/-- The final content map only depends on the set of URLs: membership decides it. -/
theorem get_scraped_content_lookup {α : Type} (fetch : String → Option α)
    (l : List String) (u : String) :
    get_scraped_content fetch l u = if u ∈ l then fetch u else none := by
  rw [get_scraped_content, get_scraped_content_foldl_lookup]
  by_cases hmem : u ∈ l
  · cases hf : fetch u with
    | some c => simp [hmem, hf]
    | none => simp [hmem, hf]
  · simp [hmem]

/-- Claim C6: merging per-URL scrape results in any completion order (any
permutation of the submitted URLs) yields the same final URL-to-content mapping
as processing the URLs sequentially.  The worker-pool size only restricts which
completion orders can occur, so the statement covers every pool size `W ≥ 1`. -/
theorem concurrent_matches_sequential {α : Type} (fetch : String → Option α)
    (urls order : List String) (hperm : order.Perm urls) (u : String) :
    get_scraped_content fetch order u = get_scraped_content fetch urls u := by
  rw [get_scraped_content_lookup, get_scraped_content_lookup]
  by_cases hmem : u ∈ urls
  · rw [if_pos hmem, if_pos (hperm.mem_iff.mpr hmem)]
  · rw [if_neg hmem, if_neg (fun hc => hmem (hperm.mem_iff.mp hc))]

/-- Witness for C6: two completion orders of the same two URLs agree. -/
theorem concurrent_matches_sequential_witness :
    get_scraped_content (fun u => if u = "a" then some 1 else some 2) ["b", "a"] "a" =
      get_scraped_content (fun u => if u = "a" then some 1 else some 2) ["a", "b"] "a" :=
  concurrent_matches_sequential (fun u => if u = "a" then some 1 else some 2)
    ["a", "b"] ["b", "a"] (by decide) "a"

/-- `chunkListAux` of the empty list is empty regardless of fuel. -/
theorem chunkListAux_nil {α : Type} (k : Nat) :
    ∀ fuel, chunkListAux k fuel ([] : List α) = [] := by
  intro fuel
  cases fuel <;> rfl

/-- Chunking specification: the chunks concatenate back to the input, every chunk
has at most `k` elements, and every chunk except possibly the last has exactly
`k` elements. -/
theorem chunkListAux_spec {α : Type} (k : Nat) (hk : 1 ≤ k) :
    ∀ (fuel : Nat) (l : List α), l.length ≤ fuel →
      (chunkListAux k fuel l).flatten = l
      ∧ (∀ c ∈ chunkListAux k fuel l, c.length ≤ k)
      ∧ (∀ c ∈ (chunkListAux k fuel l).dropLast, c.length = k) := by
  intro fuel
  induction fuel with
  | zero =>
    intro l hl
    have hnil : l = [] := List.length_eq_zero.mp (Nat.le_zero.mp hl)
    subst hnil
    simp [chunkListAux]
  | succ fuel ih =>
    intro l hl
    cases l with
    | nil => simp [chunkListAux]
    | cons x xs =>
      have hdrop : ((x :: xs).drop k).length ≤ fuel := by
        simp only [List.length_drop, List.length_cons]
        simp only [List.length_cons] at hl
        omega
      obtain ⟨ih1, ih2, ih3⟩ := ih ((x :: xs).drop k) hdrop
      simp only [chunkListAux]
      refine ⟨?_, ?_, ?_⟩
      · rw [List.flatten_cons, ih1, List.take_append_drop]
      · intro c hc
        rcases List.mem_cons.mp hc with hc | hc
        · subst hc
          simpa using List.length_take_le k (x :: xs)
        · exact ih2 c hc
      · intro c hc
        cases htail : chunkListAux k fuel ((x :: xs).drop k) with
        | nil =>
          rw [htail] at hc
          simp at hc
        | cons c2 cs2 =>
          rw [htail] at hc
          rw [List.dropLast_cons_of_ne_nil (by simp)] at hc
          rcases List.mem_cons.mp hc with hc | hc
          · subst hc
            have hne : (x :: xs).drop k ≠ [] := by
              intro hdnil
              rw [hdnil, chunkListAux_nil] at htail
              exact List.noConfusion htail
            have hklen : k < (x :: xs).length := by
              by_contra hcon
              exact hne (List.drop_eq_nil_of_le (by omega))
            rw [List.length_take]
            exact min_eq_left (by omega)
          · rw [htail] at ih3
            exact ih3 c hc

/-- The chunking used by `parallel_sitemap_processing` is correct. -/
theorem chunkList_spec {α : Type} (l : List α) (k : Nat) (hk : 1 ≤ k) :
    (chunkList l k).flatten = l
    ∧ (∀ c ∈ chunkList l k, c.length ≤ k)
    ∧ (∀ c ∈ (chunkList l k).dropLast, c.length = k) :=
  chunkListAux_spec k hk l.length l (Nat.le_refl _)

/-- Lookup in a map after merging a pair list: the last write wins, earlier maps
answer otherwise. -/
theorem mergePairs_lookup (ps : List (String × String)) :
    ∀ (m : SMap) (u : String),
      mergePairs m ps u =
        match ps.reverse.find? (fun p => p.1 == u) with
        | some p => some p.2
        | none => m u := by
  induction ps with
  | nil => intro m u; rfl
  | cons p ps ih =>
    intro m u
    simp only [mergePairs, List.foldl_cons]
    have hstep := ih (updateMap m p.1 p.2) u
    simp only [mergePairs] at hstep
    rw [hstep, List.reverse_cons, List.find?_append]
    cases hfind : ps.reverse.find? (fun q => q.1 == u) with
    | some q => simp [hfind]
    | none =>
      simp only [hfind, Option.none_or]
      cases hb : (p.1 == u) with
      | true =>
        have hpu : p.1 = u := by simpa using hb
        simp [List.find?, hb, updateMap, hpu]
      | false =>
        have hpu : ¬ (u = p.1) := by
          intro hcon
          subst hcon
          simp at hb
        simp [List.find?, hb, updateMap, hpu]

/-- Merging a concatenation is merging twice. -/
theorem mergePairs_append (m : SMap) (a b : List (String × String)) :
    mergePairs m (a ++ b) = mergePairs (mergePairs m a) b := by
  simp [mergePairs, List.foldl_append]

/-- Folding per-chunk merges equals one merge of the flattened results. -/
theorem parallel_sitemap_merge_flat (f : String → Except Unit (List (String × String))) :
    ∀ (order : List (List String)) (m : SMap),
      order.foldl (fun acc c => mergePairs acc (chunkResults f c)) m =
        mergePairs m (order.flatMap (chunkResults f)) := by
  intro order
  induction order with
  | nil => intro m; rfl
  | cons c cs ih =>
    intro m
    simp only [List.foldl_cons, List.flatMap_cons]
    rw [ih, mergePairs_append]

/-- Flattening before or after a `flatMap` agree. -/
theorem flatMap_flatten_eq {α β : Type} (g : α → List β) :
    ∀ (cs : List (List α)),
      cs.flatMap (fun c => c.flatMap g) = cs.flatten.flatMap g := by
  intro cs
  induction cs with
  | nil => rfl
  | cons c cs ih =>
    simp only [List.flatMap_cons, List.flatten_cons, List.flatMap_append, ih]

/-- The chunk result of `process_sitemap_chunk` is the per-URL results flattened. -/
theorem chunkResults_eq (f : String → Except Unit (List (String × String))) :
    chunkResults f = fun c => c.flatMap (resultsOf f) := by
  funext c
  rw [chunkResults, process_sitemap_chunk_closed]

/-- Claim C7: `parallel_sitemap_processing` splits the URL list into consecutive
chunks of `chunk_size` (the last possibly shorter), merges every completed
chunk's results into the shared sitemap atomically (under the single lock), and
— whenever titles are a function of the URL — the final sitemap holds exactly
the `(url, title)` pairs returned by the per-chunk processing, in whatever order
the futures complete. -/
theorem parallel_sitemap_processing_spec
    (f : String → Except Unit (List (String × String))) (urls : List String)
    (k : Nat) (order : List (List String)) (hk : 1 ≤ k)
    (hperm : order.Perm (chunkList urls k))
    (hdet : ∀ u t1 t2, (u, t1) ∈ urls.flatMap (resultsOf f) →
      (u, t2) ∈ urls.flatMap (resultsOf f) → t1 = t2) :
    (chunkList urls k).flatten = urls
    ∧ (∀ c ∈ chunkList urls k, c.length ≤ k)
    ∧ (∀ c ∈ (chunkList urls k).dropLast, c.length = k)
    ∧ (∀ u t, parallel_sitemap_processing f order u = some t ↔
        (u, t) ∈ (chunkList urls k).flatMap (chunkResults f)) := by
  obtain ⟨hjoin, hlen, hlast⟩ := chunkList_spec urls k hk
  refine ⟨hjoin, hlen, hlast, ?_⟩
  intro u t
  have hM : (chunkList urls k).flatMap (chunkResults f) = urls.flatMap (resultsOf f) := by
    rw [chunkResults_eq, flatMap_flatten_eq, hjoin]
  have hLM : (order.flatMap (chunkResults f)).Perm
      ((chunkList urls k).flatMap (chunkResults f)) :=
    List.Perm.flatMap_right (chunkResults f) hperm
  have hlook := mergePairs_lookup (order.flatMap (chunkResults f)) (fun _ => none) u
  rw [parallel_sitemap_processing, parallel_sitemap_merge_flat, hlook]
  constructor
  · intro hsome
    cases hfind : (order.flatMap (chunkResults f)).reverse.find? (fun p => p.1 == u) with
    | none =>
      rw [hfind] at hsome
      exact Option.noConfusion hsome
    | some p =>
      rw [hfind] at hsome
      have hp1 : p.1 = u := by simpa using List.find?_some hfind
      have hpmem : p ∈ order.flatMap (chunkResults f) :=
        List.mem_reverse.mp (List.mem_of_find?_eq_some hfind)
      have hpmem2 : p ∈ (chunkList urls k).flatMap (chunkResults f) :=
        hLM.mem_iff.mp hpmem
      have ht : p.2 = t := Option.some.inj hsome
      rw [← ht, ← hp1]
      exact hpmem2
  · intro hmem
    have hmemL : (u, t) ∈ (order.flatMap (chunkResults f)).reverse :=
      List.mem_reverse.mpr (hLM.mem_iff.mpr hmem)
    cases hfind : (order.flatMap (chunkResults f)).reverse.find? (fun p => p.1 == u) with
    | none =>
      have hex : ((order.flatMap (chunkResults f)).reverse.find?
          (fun p => p.1 == u)).isSome := by
        rw [List.find?_isSome]
        exact ⟨(u, t), hmemL, by simp⟩
      rw [hfind] at hex
      exact Bool.noConfusion hex
    | some p =>
      have hp1 : p.1 = u := by simpa using List.find?_some hfind
      have hpmem : p ∈ order.flatMap (chunkResults f) :=
        List.mem_reverse.mp (List.mem_of_find?_eq_some hfind)
      have hpM : (u, p.2) ∈ urls.flatMap (resultsOf f) := by
        rw [← hM, ← hp1]
        exact hLM.mem_iff.mp hpmem
      have htM : (u, t) ∈ urls.flatMap (resultsOf f) := by
        rw [← hM]
        exact hmem
      show some p.2 = some t
      rw [hdet u p.2 t hpM htM]

/-- Witness for C7: three URLs in chunks of two, futures completing in reverse
order; the final sitemap contains the pair produced for URL `b`. -/
theorem parallel_sitemap_processing_spec_witness :
    parallel_sitemap_processing (fun u => .ok [(u, "t")])
      ((chunkList ["a", "b", "c"] 2).reverse) "b" = some "t" := by
  have hdet : ∀ u t1 t2,
      (u, t1) ∈ (["a", "b", "c"] : List String).flatMap
        (resultsOf (fun u => .ok [(u, "t")])) →
      (u, t2) ∈ (["a", "b", "c"] : List String).flatMap
        (resultsOf (fun u => .ok [(u, "t")])) → t1 = t2 := by
    intro u t1 t2 h1 h2
    simp [resultsOf] at h1 h2
    have e1 : t1 = "t" := by
      rcases h1 with ⟨_, h⟩ | ⟨_, h⟩ | ⟨_, h⟩ <;> exact h
    have e2 : t2 = "t" := by
      rcases h2 with ⟨_, h⟩ | ⟨_, h⟩ | ⟨_, h⟩ <;> exact h
    rw [e1, e2]
  have h := (parallel_sitemap_processing_spec (fun u => .ok [(u, "t")])
    ["a", "b", "c"] 2 ((chunkList ["a", "b", "c"] 2).reverse) (by norm_num)
    (List.reverse_perm _) hdet).2.2.2 "b" "t"
  exact h.mpr (by decide)

/-- `filterMap` congruence on members. -/
theorem filterMap_congr_mem {α β : Type} (f g : α → Option β) :
    ∀ (l : List α), (∀ a ∈ l, f a = g a) → l.filterMap f = l.filterMap g := by
  intro l
  induction l with
  | nil => intro _; rfl
  | cons a l ih =>
    intro h
    rw [List.filterMap_cons, List.filterMap_cons, h a (List.mem_cons_self a l),
      ih (fun b hb => h b (List.mem_cons_of_mem a hb))]

/-- Claim C3: on a well-formed XML sitemap document — the root is not itself a
`<loc>` element, and no `<loc>` element carries an explicit empty-string text,
which parsed XML never produces — `_parse_xml_sitemap` returns exactly the set of
text values of the document's `<loc>` elements. -/
theorem parse_xml_sitemap_exact (doc : XMLTree)
    (hroot : doc.tag ≠ nsLoc)
    (htext : ∀ e ∈ descendants doc, e.tag = nsLoc → e.text ≠ some "") :
    ∀ s, s ∈ parse_xml_sitemap doc ↔ s ∈ locTextValues doc := by
  have hfilter : (doc :: descendants doc).filter (fun e => e.tag == nsLoc)
      = (descendants doc).filter (fun e => e.tag == nsLoc) := by
    rw [List.filter_cons]
    simp [hroot]
  have hlists : parse_xml_sitemap doc = locTextValues doc := by
    rw [parse_xml_sitemap, locTextValues, hfilter, findall_loc]
    apply filterMap_congr_mem
    intro e he
    rw [List.mem_filter] at he
    obtain ⟨hmem, htag⟩ := he
    have htag2 : e.tag = nsLoc := by simpa using htag
    cases hct : e.text with
    | none => rfl
    | some s =>
      have hne : s ≠ "" := by
        intro hcon
        exact htext e hmem htag2 (by rw [hct, hcon])
      simp [hne]
  intro s
  rw [hlists]

/-- The qualified tag of `<url>` container elements in the sample document. -/
def nsUrl : String := "\x7bhttp://www.sitemaps.org/schemas/sitemap/0.9\x7durl"

/-- The qualified root tag of the sample document. -/
def nsUrlset : String := "\x7bhttp://www.sitemaps.org/schemas/sitemap/0.9\x7durlset"

/-- A small concrete sitemap: a `<urlset>` with two `<url><loc>…</loc></url>` entries. -/
def sampleSitemap : XMLTree :=
  .elem nsUrlset none (.cons
    (.elem nsUrl none (.cons (.elem nsLoc (some "https://d.com/a") .nil) .nil))
    (.cons
      (.elem nsUrl none (.cons (.elem nsLoc (some "https://d.com/b") .nil) .nil))
      .nil))

/-- Witness for C3 on the sample document. -/
theorem parse_xml_sitemap_exact_witness :
    "https://d.com/a" ∈ parse_xml_sitemap sampleSitemap ↔
      "https://d.com/a" ∈ locTextValues sampleSitemap :=
  parse_xml_sitemap_exact sampleSitemap (by decide) (by decide) "https://d.com/a"

/-- A break point accepted by the guard lies strictly after `start` and, together
with its pattern, inside the search window. -/
theorem rfindGt_bounds (text sub : List Char) (s e i : Nat)
    (h : rfindGt text sub s e = some i) : s < i ∧ i + sub.length ≤ e := by
  unfold rfindGt at h
  cases hf : rfindSub text sub s e with
  | none =>
    rw [hf] at h
    exact Option.noConfusion h
  | some j =>
    rw [hf] at h
    have h2 : (if s < j then some j else none) = some i := h
    by_cases hsj : s < j
    · rw [if_pos hsj] at h2
      obtain rfl : j = i := Option.some.inj h2
      have hmem := List.mem_of_getLast?_eq_some hf
      have hprop := List.mem_filter.mp hmem
      have hle : j + sub.length ≤ e := by
        have hand := hprop.2
        simp only [Bool.and_eq_true, decide_eq_true_eq] at hand
        exact hand.1
      exact ⟨hsj, hle⟩
    · rw [if_neg hsj] at h2
      exact Option.noConfusion h2

/-- The adjusted chunk end always makes progress and never grows the chunk. -/
theorem adjustEnd_bounds (text : List Char) (s e : Nat) (hse : s < e) :
    s < adjustEnd text s e ∧ adjustEnd text s e ≤ e := by
  unfold adjustEnd
  cases h1 : rfindGt text ('\n' :: '\n' :: []) s e with
  | some pb =>
    obtain ⟨hs, hb⟩ := rfindGt_bounds text _ s e pb h1
    simp only [List.length_cons, List.length_nil] at hb
    exact (show s < pb + 2 ∧ pb + 2 ≤ e from ⟨by omega, by omega⟩)
  | none =>
    cases h2 : rfindGt text ('.' :: ' ' :: []) s e with
    | some se2 =>
      obtain ⟨hs, hb⟩ := rfindGt_bounds text _ s e se2 h2
      simp only [List.length_cons, List.length_nil] at hb
      exact (show s < se2 + 2 ∧ se2 + 2 ≤ e from ⟨by omega, by omega⟩)
    | none =>
      cases h3 : rfindGt text (' ' :: []) s e with
      | some wb =>
        obtain ⟨hs, hb⟩ := rfindGt_bounds text _ s e wb h3
        simp only [List.length_cons, List.length_nil] at hb
        exact (show s < wb + 1 ∧ wb + 1 ≤ e from ⟨by omega, by omega⟩)
      | none => exact ⟨hse, Nat.le_refl e⟩

/-- Invariant of the chunk loop: with enough fuel it consumes exactly the suffix
from `start`, producing chunks of at most `maxLen` characters. -/
theorem chunk_loop_spec (text : List Char) (maxLen : Nat) (hml : 1 ≤ maxLen) :
    ∀ (fuel start : Nat), text.length - start ≤ fuel →
      (chunk_loop text maxLen start fuel).flatten = text.drop start
      ∧ ∀ c ∈ chunk_loop text maxLen start fuel, c.length ≤ maxLen := by
  intro fuel
  induction fuel with
  | zero =>
    intro start hfuel
    have hge : text.length ≤ start := by omega
    simp [chunk_loop, List.drop_eq_nil_of_le hge]
  | succ fuel ih =>
    intro start hfuel
    by_cases hlt : start < text.length
    · have hse : start < start + maxLen := by omega
      simp only [chunk_loop, if_pos hlt]
      set e := if start + maxLen < text.length
        then adjustEnd text start (start + maxLen) else start + maxLen with he
      have hbounds : start < e ∧ e ≤ start + maxLen := by
        rw [he]
        split_ifs with hcase
        · exact adjustEnd_bounds text start (start + maxLen) hse
        · exact ⟨hse, Nat.le_refl _⟩
      obtain ⟨hlo, hhi⟩ := hbounds
      obtain ⟨ih1, ih2⟩ := ih e (by omega)
      constructor
      · rw [List.flatten_cons, ih1]
        have hsplit : text.drop e = (text.drop start).drop (e - start) := by
          rw [List.drop_drop]
          congr 1
          omega
        rw [hsplit, List.take_append_drop]
      · intro c hc
        rcases List.mem_cons.mp hc with hc | hc
        · subst hc
          calc ((text.drop start).take (e - start)).length
              ≤ e - start := List.length_take_le _ _
            _ ≤ maxLen := by omega
        · exact ih2 c hc
    · have hge : text.length ≤ start := by omega
      simp [chunk_loop, hlt, List.drop_eq_nil_of_le hge]

/-- Claim C9: for `max_length ≥ 1` the chunks of `chunk_text` concatenate, in
order, back to the input text, and every chunk has at most `max_length`
characters. -/
theorem chunk_text_spec (text : List Char) (maxLen : Nat) (hml : 1 ≤ maxLen) :
    (chunk_text text maxLen).flatten = text
    ∧ ∀ c ∈ chunk_text text maxLen, c.length ≤ maxLen := by
  unfold chunk_text
  split_ifs with hshort
  · constructor
    · simp
    · intro c hc
      rw [List.mem_singleton.mp hc]
      exact hshort
  · obtain ⟨h1, h2⟩ := chunk_loop_spec text maxLen hml (text.length + 1) 0 (by omega)
    exact ⟨by simpa using h1, h2⟩

/-- Witness for C9 on a concrete text with word-boundary splitting. -/
theorem chunk_text_spec_witness :
    (chunk_text ("hello world, this splits" : String).toList 8).flatten =
      ("hello world, this splits" : String).toList := by
  exact (chunk_text_spec ("hello world, this splits" : String).toList 8 (by norm_num)).1

/-- Characters with equal code points are equal. -/
theorem char_toNat_inj {c d : Char} (h : c.toNat = d.toNat) : c = d := by
  have h1 := Char.ofNat_toNat c
  rw [h, Char.ofNat_toNat] at h1
  exact h1.symm

/-- `Char.ofNat` of a valid code point round-trips. -/
theorem toNat_ofNat_valid (n : Nat) (h : n.isValidChar) : (Char.ofNat n).toNat = n := by
  unfold Char.ofNat
  rw [dif_pos h]
  rfl

/-- The code point of `pyLower`. -/
theorem pyLower_toNat (c : Char) :
    (pyLower c).toNat =
      if 65 ≤ c.toNat ∧ c.toNat ≤ 90 then c.toNat + 32 else c.toNat := by
  unfold pyLower
  split_ifs with h
  · exact toNat_ofNat_valid _ (Or.inl (by omega))
  · rfl

/-- `isSchemeChar` in terms of code points. -/
theorem isSchemeChar_iff (c : Char) :
    isSchemeChar c = true ↔
      (65 ≤ c.toNat ∧ c.toNat ≤ 90) ∨ (97 ≤ c.toNat ∧ c.toNat ≤ 122)
        ∨ (48 ≤ c.toNat ∧ c.toNat ≤ 57) ∨ c.toNat = 43 ∨ c.toNat = 45
        ∨ c.toNat = 46 := by
  simp only [isSchemeChar, Bool.or_eq_true, Bool.and_eq_true, decide_eq_true_eq,
    beq_iff_eq]
  tauto

/-- `isAsciiAlpha` in terms of code points. -/
theorem isAsciiAlpha_iff (c : Char) :
    isAsciiAlpha c = true ↔
      (65 ≤ c.toNat ∧ c.toNat ≤ 90) ∨ (97 ≤ c.toNat ∧ c.toNat ≤ 122) := by
  simp only [isAsciiAlpha, Bool.or_eq_true, Bool.and_eq_true, decide_eq_true_eq]

/-- Lower-casing preserves scheme characters. -/
theorem pyLower_schemeChar (c : Char) (h : isSchemeChar c = true) :
    isSchemeChar (pyLower c) = true := by
  rw [isSchemeChar_iff] at h ⊢
  rw [pyLower_toNat]
  split_ifs <;> omega

/-- Lower-casing preserves ASCII letters. -/
theorem pyLower_alpha (c : Char) (h : isAsciiAlpha c = true) :
    isAsciiAlpha (pyLower c) = true := by
  rw [isAsciiAlpha_iff] at h ⊢
  rw [pyLower_toNat]
  split_ifs <;> omega

/-- Lower-casing is idempotent. -/
theorem pyLower_idem (c : Char) : pyLower (pyLower c) = pyLower c := by
  conv_lhs => rw [pyLower]
  rw [if_neg]
  rw [pyLower_toNat]
  split_ifs <;> omega

/-- Scheme characters are none of the URL delimiter characters. -/
theorem schemeChar_not_special (c : Char) (h : isSchemeChar c = true) :
    c ≠ ':' ∧ c ≠ '/' ∧ c ≠ '?' ∧ c ≠ '#' := by
  refine ⟨?_, ?_, ?_, ?_⟩ <;> intro hc <;> subst hc <;> exact absurd h (by decide)

/-- `takeWhile` walks through a satisfying segment. -/
theorem takeWhile_append_all {α : Type} (p : α → Bool) :
    ∀ (a b : List α), (∀ x ∈ a, p x = true) →
      (a ++ b).takeWhile p = a ++ b.takeWhile p := by
  intro a
  induction a with
  | nil => intro b _; rfl
  | cons x xs ih =>
    intro b h
    rw [List.cons_append, List.takeWhile_cons, h x (List.mem_cons_self x xs),
      ih b (fun y hy => h y (List.mem_cons_of_mem x hy))]
    rfl

/-- `dropWhile` walks through a satisfying segment. -/
theorem dropWhile_append_all {α : Type} (p : α → Bool) :
    ∀ (a b : List α), (∀ x ∈ a, p x = true) →
      (a ++ b).dropWhile p = b.dropWhile p := by
  intro a
  induction a with
  | nil => intro b _; rfl
  | cons x xs ih =>
    intro b h
    rw [List.cons_append, List.dropWhile_cons, if_pos (h x (List.mem_cons_self x xs)),
      ih b (fun y hy => h y (List.mem_cons_of_mem x hy))]

/-- `takeWhile` of an all-satisfying list is the list. -/
theorem takeWhile_eq_self_of_all {α : Type} (p : α → Bool) (l : List α)
    (h : ∀ x ∈ l, p x = true) : l.takeWhile p = l := by
  have h2 := takeWhile_append_all p l [] h
  simpa using h2

/-- The head of a `dropWhile` residue falsifies the predicate. -/
theorem dropWhile_head_false {α : Type} (p : α → Bool) :
    ∀ (l : List α) x xs, l.dropWhile p = x :: xs → p x = false := by
  intro l
  induction l with
  | nil => intro x xs h; exact List.noConfusion h
  | cons y ys ih =>
    intro x xs h
    rw [List.dropWhile_cons] at h
    by_cases hy : p y = true
    · rw [if_pos hy] at h
      exact ih x xs h
    · rw [if_neg hy] at h
      obtain ⟨rfl, _⟩ := List.cons.injEq .. ▸ h
      · cases hpy : p y with
        | true => exact absurd hpy hy
        | false => rfl

/-- `dropWhile` is idempotent. -/
theorem dropWhile_idem {α : Type} (p : α → Bool) (l : List α) :
    (l.dropWhile p).dropWhile p = l.dropWhile p := by
  cases hd : l.dropWhile p with
  | nil => rfl
  | cons x xs =>
    rw [List.dropWhile_cons, dropWhile_head_false p l x xs hd]
    simp

/-- Stripping trailing slashes yields a prefix of the input. -/
theorem rstripSlash_isPre (l : List Char) : List.IsPrefix (rstripSlash l) l := by
  rw [rstripSlash]
  have h := List.dropWhile_suffix (l := l.reverse) (fun c => c = '/')
  have h2 := List.reverse_prefix.mpr h
  simpa using h2

/-- Members of the stripped list are members of the input. -/
theorem mem_rstripSlash {x : Char} {l : List Char} (h : x ∈ rstripSlash l) : x ∈ l :=
  (rstripSlash_isPre l).subset h

/-- A stripped list never ends in `'/'`. -/
theorem rstripSlash_getLast (l : List Char) :
    (rstripSlash l).getLast? ≠ some '/' := by
  rw [rstripSlash, List.getLast?_eq_head?_reverse, List.reverse_reverse]
  cases hd : (l.reverse.dropWhile (fun c => c = '/')) with
  | nil => simp
  | cons x xs =>
    have hx := dropWhile_head_false _ _ _ _ hd
    simp only [List.head?_cons, ne_eq, Option.some.injEq]
    intro hcon
    subst hcon
    simp at hx

/-- Stripping trailing slashes is idempotent. -/
theorem rstripSlash_idem (l : List Char) :
    rstripSlash (rstripSlash l) = rstripSlash l := by
  rw [rstripSlash, rstripSlash, List.reverse_reverse, dropWhile_idem]

/-- Stripping does not cross a non-slash last element. -/
theorem rstripSlash_append (a b : List Char)
    (h : ∀ x, a.getLast? = some x → x ≠ '/') :
    rstripSlash (a ++ b) = a ++ rstripSlash b := by
  rw [rstripSlash, rstripSlash, List.reverse_append, List.dropWhile_append]
  by_cases hb : (b.reverse.dropWhile (fun c => c = '/')).isEmpty
  · rw [if_pos hb]
    have hbnil : b.reverse.dropWhile (fun c => c = '/') = [] :=
      List.isEmpty_iff.mp hb
    rw [hbnil, List.reverse_nil, List.append_nil]
    cases ha : a.reverse with
    | nil =>
      have : a = [] := by simpa using congrArg List.reverse ha
      subst this
      simp
    | cons x xs =>
      have hlast : a.getLast? = some x := by
        rw [List.getLast?_eq_head?_reverse, ha]
        rfl
      have hx : x ≠ '/' := h x hlast
      rw [List.dropWhile_cons, if_neg (by simpa using hx), ← ha,
        List.reverse_reverse]
  · rw [if_neg hb]
    rw [List.reverse_append, List.reverse_reverse]

/-- Stripping preserves the head of what remains. -/
theorem rstripSlash_head (l : List Char) :
    rstripSlash l = [] ∨ (rstripSlash l).head? = l.head? := by
  cases hq : rstripSlash l with
  | nil => exact Or.inl rfl
  | cons x xs =>
    right
    obtain ⟨t, ht⟩ := rstripSlash_isPre l
    rw [← ht, hq]
    rfl

/-- Case analysis of the scheme-recognition step. -/
theorem schemeSplit_cases (u : List Char) :
    schemeSplit u = ([], u)
    ∨ (∃ before, before ≠ []
        ∧ isAsciiAlpha (before.headD ' ') = true
        ∧ before.all isSchemeChar = true
        ∧ before = u.takeWhile (fun c => c ≠ ':')
        ∧ schemeSplit u =
            (before.map pyLower, (u.dropWhile (fun c => c ≠ ':')).drop 1)) := by
  have hred : schemeSplit u =
      (if (':' ∈ u) ∧ u.takeWhile (fun c => c ≠ ':') ≠ []
          ∧ isAsciiAlpha ((u.takeWhile (fun c => c ≠ ':')).headD ' ') = true
          ∧ (u.takeWhile (fun c => c ≠ ':')).all isSchemeChar = true then
        ((u.takeWhile (fun c => c ≠ ':')).map pyLower,
          (u.dropWhile (fun c => c ≠ ':')).drop 1)
      else ([], u)) := rfl
  rw [hred]
  split_ifs with hg
  · right
    exact ⟨u.takeWhile (fun c => c ≠ ':'), hg.2.1, hg.2.2.1, hg.2.2.2, rfl, rfl⟩
  · left
    rfl

/-- Properties of a recognised, lower-cased scheme. -/
theorem scheme_props (before : List Char) (hne : before ≠ [])
    (hhead : isAsciiAlpha (before.headD ' ') = true)
    (hall : before.all isSchemeChar = true) :
    before.map pyLower ≠ []
    ∧ isAsciiAlpha ((before.map pyLower).headD ' ') = true
    ∧ (before.map pyLower).all isSchemeChar = true
    ∧ (before.map pyLower).map pyLower = before.map pyLower := by
  refine ⟨by simpa using hne, ?_, ?_, ?_⟩
  · cases before with
    | nil => exact absurd rfl hne
    | cons x xs =>
      simp only [List.map_cons, List.headD_cons] at hhead ⊢
      exact pyLower_alpha x hhead
  · rw [List.all_eq_true] at hall ⊢
    intro y hy
    rw [List.mem_map] at hy
    obtain ⟨z, hz, rfl⟩ := hy
    exact pyLower_schemeChar z (hall z hz)
  · rw [List.map_map]
    apply List.map_congr_left
    intro z _
    simp only [Function.comp]
    exact pyLower_idem z

/-- With a nonempty netloc, the netloc contains no `/?#` and the path is empty
or starts with `'/'`. -/
theorem urlsplitM_netloc_facts (u : List Char) (hn : (urlsplitM u).netloc ≠ []) :
    (∀ c ∈ (urlsplitM u).netloc, isNetlocEnd c = false)
    ∧ ((urlsplitM u).path = [] ∨ (urlsplitM u).path.head? = some '/') := by
  have hnet : (urlsplitM u).netloc = (netlocSplit (schemeSplit u).2).1 := rfl
  have hpathdef : (urlsplitM u).path
      = ((netlocSplit (schemeSplit u).2).2.takeWhile
          (fun c => c ≠ '#')).takeWhile (fun c => c ≠ '?') := rfl
  by_cases hcase : ((schemeSplit u).2).take 2 = ('/' :: '/' :: [])
  · have h1 : (netlocSplit (schemeSplit u).2).1
        = ((schemeSplit u).2.drop 2).takeWhile (fun c => !isNetlocEnd c) := by
      rw [netlocSplit, if_pos hcase]
    have h2 : (netlocSplit (schemeSplit u).2).2
        = ((schemeSplit u).2.drop 2).dropWhile (fun c => !isNetlocEnd c) := by
      rw [netlocSplit, if_pos hcase]
    constructor
    · intro c hc
      rw [hnet, h1] at hc
      have := List.mem_takeWhile_imp hc
      simpa using this
    · rw [hpathdef, h2]
      cases hr : ((schemeSplit u).2.drop 2).dropWhile (fun c => !isNetlocEnd c) with
      | nil => left; rfl
      | cons x xs =>
        have hx : isNetlocEnd x = true := by
          have := dropWhile_head_false _ _ _ _ hr
          simpa using this
        rw [isNetlocEnd] at hx
        rcases Bool.or_eq_true_iff.mp hx with hx1 | hx2
        · rcases Bool.or_eq_true_iff.mp hx1 with hxa | hxb
          · have hxeq : x = '/' := by simpa using hxa
            subst hxeq
            right
            simp [List.takeWhile_cons]
          · have hxeq : x = '?' := by simpa using hxb
            subst hxeq
            left
            simp [List.takeWhile_cons]
        · have hxeq : x = '#' := by simpa using hx2
          subst hxeq
          left
          simp [List.takeWhile_cons]
  · exfalso
    apply hn
    rw [hnet, netlocSplit, if_neg hcase]

/-- The parsed path contains neither `'#'` nor `'?'`. -/
theorem urlsplitM_path_no_delims (u : List Char) :
    ('#' ∉ (urlsplitM u).path) ∧ ('?' ∉ (urlsplitM u).path) := by
  have hpathdef : (urlsplitM u).path
      = ((netlocSplit (schemeSplit u).2).2.takeWhile
          (fun c => c ≠ '#')).takeWhile (fun c => c ≠ '?') := rfl
  constructor
  · intro hmem
    rw [hpathdef] at hmem
    have h1 := (List.takeWhile_prefix (fun c => c ≠ '?')).subset hmem
    have := List.mem_takeWhile_imp h1
    simp at this
  · intro hmem
    rw [hpathdef] at hmem
    have := List.mem_takeWhile_imp hmem
    simp at this

/-- `dropWhile` of an all-satisfying list is empty. -/
theorem dropWhile_eq_nil_of_all {α : Type} (p : α → Bool) (l : List α)
    (h : ∀ x ∈ l, p x = true) : l.dropWhile p = [] := by
  have h2 := dropWhile_append_all p l [] h
  simpa using h2

/-- Parsing the canonical `scheme://netloc + path` rendering recovers the
components, when the scheme is a valid lower-case scheme, the netloc has no
delimiters, and the path is empty or slash-initial with no `#` or `?`. -/
theorem urlsplitM_canonical (sc nl q : List Char)
    (hscne : sc ≠ [])
    (hschead : isAsciiAlpha (sc.headD ' ') = true)
    (hscall : sc.all isSchemeChar = true)
    (hscmap : sc.map pyLower = sc)
    (hnlchars : ∀ c ∈ nl, isNetlocEnd c = false)
    (hqshape : q = [] ∨ q.head? = some '/')
    (hqhash : '#' ∉ q) (hqquest : '?' ∉ q) :
    urlsplitM (sc ++ ':' :: '/' :: '/' :: (nl ++ q)) = ⟨sc, nl, q, [], []⟩ := by
  have hscforall : ∀ x ∈ sc, (fun c => decide (c ≠ ':')) x = true := by
    intro x hx
    have hnc := (schemeChar_not_special x (List.all_eq_true.mp hscall x hx)).1
    simpa using hnc
  have hbefore : (sc ++ ':' :: '/' :: '/' :: (nl ++ q)).takeWhile
      (fun c => c ≠ ':') = sc := by
    rw [takeWhile_append_all _ sc _ hscforall]
    simp [List.takeWhile_cons]
  have hafter : ((sc ++ ':' :: '/' :: '/' :: (nl ++ q)).dropWhile
      (fun c => c ≠ ':')).drop 1 = '/' :: '/' :: (nl ++ q) := by
    rw [dropWhile_append_all _ sc _ hscforall]
    simp [List.dropWhile_cons]
  have hmemcolon : ':' ∈ sc ++ ':' :: '/' :: '/' :: (nl ++ q) := by simp
  have hsredex : schemeSplit (sc ++ ':' :: '/' :: '/' :: (nl ++ q)) =
      (if (':' ∈ sc ++ ':' :: '/' :: '/' :: (nl ++ q))
          ∧ (sc ++ ':' :: '/' :: '/' :: (nl ++ q)).takeWhile (fun c => c ≠ ':') ≠ []
          ∧ isAsciiAlpha (((sc ++ ':' :: '/' :: '/' :: (nl ++ q)).takeWhile
              (fun c => c ≠ ':')).headD ' ') = true
          ∧ ((sc ++ ':' :: '/' :: '/' :: (nl ++ q)).takeWhile
              (fun c => c ≠ ':')).all isSchemeChar = true then
        (((sc ++ ':' :: '/' :: '/' :: (nl ++ q)).takeWhile
            (fun c => c ≠ ':')).map pyLower,
          ((sc ++ ':' :: '/' :: '/' :: (nl ++ q)).dropWhile
            (fun c => c ≠ ':')).drop 1)
      else ([], sc ++ ':' :: '/' :: '/' :: (nl ++ q))) := rfl
  have hsch : schemeSplit (sc ++ ':' :: '/' :: '/' :: (nl ++ q))
      = (sc, '/' :: '/' :: (nl ++ q)) := by
    rw [hsredex, hbefore, hafter, if_pos ⟨hmemcolon, hscne, hschead, hscall⟩, hscmap]
  have hnlforall : ∀ x ∈ nl, (fun c => !isNetlocEnd c) x = true := by
    intro x hx
    simp [hnlchars x hx]
  have hnl2 : netlocSplit ('/' :: '/' :: (nl ++ q)) = (nl, q) := by
    rw [netlocSplit, if_pos (by rfl)]
    have hdrop2 : ('/' :: '/' :: (nl ++ q)).drop 2 = nl ++ q := rfl
    rw [hdrop2, takeWhile_append_all _ nl _ hnlforall,
      dropWhile_append_all _ nl _ hnlforall]
    rcases hqshape with rfl | hqh
    · simp
    · cases q with
      | nil => simp
      | cons c cs =>
        have hc : c = '/' := by simpa using hqh
        subst hc
        simp [List.takeWhile_cons, List.dropWhile_cons, isNetlocEnd]
  have hfaf : q.takeWhile (fun c => c ≠ '#') = q := by
    apply takeWhile_eq_self_of_all
    intro x hx
    have hne : x ≠ '#' := fun hcon => hqhash (hcon ▸ hx)
    simpa using hne
  have hfq : q.takeWhile (fun c => c ≠ '?') = q := by
    apply takeWhile_eq_self_of_all
    intro x hx
    have hne : x ≠ '?' := fun hcon => hqquest (hcon ▸ hx)
    simpa using hne
  have hdropq : q.dropWhile (fun c => c ≠ '?') = [] := by
    apply dropWhile_eq_nil_of_all
    intro x hx
    have hne : x ≠ '?' := fun hcon => hqquest (hcon ▸ hx)
    simpa using hne
  have hdroph : q.dropWhile (fun c => c ≠ '#') = [] := by
    apply dropWhile_eq_nil_of_all
    intro x hx
    have hne : x ≠ '#' := fun hcon => hqhash (hcon ▸ hx)
    simpa using hne
  have hured : urlsplitM (sc ++ ':' :: '/' :: '/' :: (nl ++ q)) =
      ⟨(schemeSplit (sc ++ ':' :: '/' :: '/' :: (nl ++ q))).1,
        (netlocSplit (schemeSplit (sc ++ ':' :: '/' :: '/' :: (nl ++ q))).2).1,
        (((netlocSplit (schemeSplit
            (sc ++ ':' :: '/' :: '/' :: (nl ++ q))).2).2.takeWhile
            (fun c => c ≠ '#')).takeWhile (fun c => c ≠ '?')),
        ((((netlocSplit (schemeSplit
            (sc ++ ':' :: '/' :: '/' :: (nl ++ q))).2).2.takeWhile
            (fun c => c ≠ '#')).dropWhile (fun c => c ≠ '?')).drop 1),
        (((netlocSplit (schemeSplit
            (sc ++ ':' :: '/' :: '/' :: (nl ++ q))).2).2.dropWhile
            (fun c => c ≠ '#')).drop 1)⟩ := rfl
  rw [hured]
  simp only [hsch]
  simp only [hnl2]
  rw [hfaf, hfq, hdropq, hdroph]
  rfl

/-- Claim C8 as stated is false on the code: `normalize_url` is not idempotent on
every absolute URL.  On `http://h/a;x/` the first pass keeps the path `/a;x/`
(the `;` sits after the last `/`, so `urlparse` strips no parameters) and removes
the trailing slash; re-parsing `http://h/a;x` now finds `;x` after the last `/`
and strips it as parameters, giving `http://h/a`. -/
theorem normalize_url_claim_counterexample :
    ¬ (∀ u : List Char,
      (urlsplitM u).scheme ≠ [] → (urlsplitM u).netloc ≠ [] →
        (normalize_url (normalize_url u) = normalize_url u
          ∧ '#' ∉ normalize_url u ∧ '?' ∉ normalize_url u
          ∧ (normalize_url u).getLast? ≠ some '/')) := by
  intro h
  have h2 := h ("http://h/a;x/").toList (by decide) (by decide)
  exact absurd h2.1 (by decide)

/-- Claim C8 (amended): for every absolute URL (nonempty scheme and host) whose
parsed path contains no `';'`, `normalize_url` is idempotent, and its result
contains no fragment, no query and no trailing slash. -/
theorem normalize_url_spec (u : List Char)
    (hs : (urlsplitM u).scheme ≠ [])
    (hn : (urlsplitM u).netloc ≠ [])
    (hsemi : ';' ∉ (urlsplitM u).path) :
    normalize_url (normalize_url u) = normalize_url u
    ∧ '#' ∉ normalize_url u
    ∧ '?' ∉ normalize_url u
    ∧ (normalize_url u).getLast? ≠ some '/' := by
  obtain ⟨hnlchars, hpshape⟩ := urlsplitM_netloc_facts u hn
  obtain ⟨hnohash, hnoq⟩ := urlsplitM_path_no_delims u
  have hschemefacts : (urlsplitM u).scheme ≠ []
      ∧ isAsciiAlpha ((urlsplitM u).scheme.headD ' ') = true
      ∧ (urlsplitM u).scheme.all isSchemeChar = true
      ∧ (urlsplitM u).scheme.map pyLower = (urlsplitM u).scheme := by
    rcases schemeSplit_cases u with hcase | ⟨before, h1, h2, h3, h4, h5⟩
    · exfalso
      apply hs
      have hdef : (urlsplitM u).scheme = (schemeSplit u).1 := rfl
      rw [hdef, hcase]
    · have hsc_eq : (urlsplitM u).scheme = before.map pyLower := by
        have hdef : (urlsplitM u).scheme = (schemeSplit u).1 := rfl
        rw [hdef, h5]
      obtain ⟨a1, a2, a3, a4⟩ := scheme_props before h1 h2 h3
      rw [hsc_eq]
      exact ⟨a1, a2, a3, a4⟩
  obtain ⟨hscne, hschead, hscall, hscmap⟩ := hschemefacts
  have hpath2 : urlparse_path u = (urlsplitM u).path := by
    rw [urlparse_path, if_neg hsemi]
  have hqsub : ∀ x ∈ rstripSlash (urlsplitM u).path, x ∈ (urlsplitM u).path :=
    fun x hx => mem_rstripSlash hx
  have hq0 : rstripSlash (urlsplitM u).path = []
      ∨ (rstripSlash (urlsplitM u).path).head? = some '/' := by
    rcases hpshape with hp0 | hph
    · left
      rw [hp0]
      rfl
    · rcases rstripSlash_head (urlsplitM u).path with h0 | hh
      · left
        exact h0
      · right
        rw [hh]
        exact hph
  have hqhash : '#' ∉ rstripSlash (urlsplitM u).path := fun hx => hnohash (hqsub _ hx)
  have hqquest : '?' ∉ rstripSlash (urlsplitM u).path := fun hx => hnoq (hqsub _ hx)
  have hqsemi : ';' ∉ rstripSlash (urlsplitM u).path := fun hx => hsemi (hqsub _ hx)
  have hAlast : ∀ x,
      ((urlsplitM u).scheme ++ ':' :: '/' :: '/' :: (urlsplitM u).netloc).getLast?
        = some x → x ≠ '/' := by
    intro x hx
    have hX : (':' :: '/' :: '/' :: (urlsplitM u).netloc : List Char)
        = [':', '/', '/'] ++ (urlsplitM u).netloc := rfl
    rw [hX, List.getLast?_append, List.getLast?_append] at hx
    cases hgl : (urlsplitM u).netloc.getLast? with
    | none =>
      exfalso
      apply hn
      rwa [List.getLast?_eq_none_iff] at hgl
    | some y =>
      rw [hgl] at hx
      have hxy : y = x := by simpa using hx
      subst hxy
      have hymem : y ∈ (urlsplitM u).netloc := List.mem_of_getLast?_eq_some hgl
      have hend := hnlchars y hymem
      intro hcon
      subst hcon
      simp [isNetlocEnd] at hend
  have hassoc : (urlsplitM u).scheme ++ ':' :: '/' :: '/' ::
        ((urlsplitM u).netloc ++ (urlsplitM u).path)
      = ((urlsplitM u).scheme ++ ':' :: '/' :: '/' :: (urlsplitM u).netloc)
        ++ (urlsplitM u).path := by
    simp
  have hnorm : normalize_url u
      = ((urlsplitM u).scheme ++ ':' :: '/' :: '/' :: (urlsplitM u).netloc)
        ++ rstripSlash (urlsplitM u).path := by
    rw [normalize_url, hpath2, hassoc, rstripSlash_append _ _ hAlast]
  have hassoc2 : ((urlsplitM u).scheme ++ ':' :: '/' :: '/' :: (urlsplitM u).netloc)
        ++ rstripSlash (urlsplitM u).path
      = (urlsplitM u).scheme ++ ':' :: '/' :: '/' ::
        ((urlsplitM u).netloc ++ rstripSlash (urlsplitM u).path) := by
    simp
  have hsplit2 : urlsplitM (normalize_url u) =
      ⟨(urlsplitM u).scheme, (urlsplitM u).netloc,
        rstripSlash (urlsplitM u).path, [], []⟩ := by
    rw [hnorm, hassoc2]
    exact urlsplitM_canonical _ _ _ hscne hschead hscall hscmap hnlchars hq0
      hqhash hqquest
  refine ⟨?_, ?_, ?_, ?_⟩
  · conv_lhs => rw [normalize_url]
    rw [urlparse_path, hsplit2]
    simp only []
    rw [if_neg hqsemi]
    have hassoc3 : (urlsplitM u).scheme ++ ':' :: '/' :: '/' ::
          ((urlsplitM u).netloc ++ rstripSlash (urlsplitM u).path)
        = ((urlsplitM u).scheme ++ ':' :: '/' :: '/' :: (urlsplitM u).netloc)
          ++ rstripSlash (urlsplitM u).path := by
      simp
    rw [hassoc3, rstripSlash_append _ _ hAlast, rstripSlash_idem, ← hnorm]
  · intro hx
    rw [hnorm] at hx
    rcases List.mem_append.mp hx with hx | hx
    · rcases List.mem_append.mp hx with hx | hx
      · have := List.all_eq_true.mp hscall _ hx
        exact absurd this (by decide)
      · rcases List.mem_cons.mp hx with hx | hx
        · exact absurd hx (by decide)
        · rcases List.mem_cons.mp hx with hx | hx
          · exact absurd hx (by decide)
          · rcases List.mem_cons.mp hx with hx | hx
            · exact absurd hx (by decide)
            · have := hnlchars _ hx
              simp [isNetlocEnd] at this
    · exact hqhash hx
  · intro hx
    rw [hnorm] at hx
    rcases List.mem_append.mp hx with hx | hx
    · rcases List.mem_append.mp hx with hx | hx
      · have := List.all_eq_true.mp hscall _ hx
        exact absurd this (by decide)
      · rcases List.mem_cons.mp hx with hx | hx
        · exact absurd hx (by decide)
        · rcases List.mem_cons.mp hx with hx | hx
          · exact absurd hx (by decide)
          · rcases List.mem_cons.mp hx with hx | hx
            · exact absurd hx (by decide)
            · have := hnlchars _ hx
              simp [isNetlocEnd] at this
    · exact hqquest hx
  · rw [normalize_url]
    exact rstripSlash_getLast _

/-- Witness for C8 on a concrete documentation URL. -/
theorem normalize_url_spec_witness :
    normalize_url (normalize_url ("https://docs.example.com/en/start/").toList)
      = normalize_url ("https://docs.example.com/en/start/").toList :=
  (normalize_url_spec ("https://docs.example.com/en/start/").toList
    (by decide) (by decide) (by decide)).1
